import Mathlib

/-!
Verification of the DevLogger core (logger.ts, persistence.ts,
network-capture.ts) against its natural-language specification.

The definitions below are a shallow embedding of the TypeScript source:
pure functions become Lean functions, the stateful `LoggerCore` class
becomes explicit state passing on a `LoggerState` record, JavaScript
exceptions become `Except`/explicit throw markers, and the mutable
`WeakSet` used for cycle detection becomes a threaded `List Nat` of
visited heap addresses.
-/

namespace DevLogger

/-! ## Log levels (types.ts) -/

/-- `LogLevel` from types.ts: 'debug' | 'info' | 'warn' | 'error'. -/
inductive LogLevel where
  | debug
  | info
  | warn
  | error
deriving DecidableEq, Repr

/-- `LOG_LEVEL_VALUES` from types.ts: debug 0, info 1, warn 2, error 3. -/
def LOG_LEVEL_VALUES : LogLevel → Nat
  | .debug => 0
  | .info => 1
  | .warn => 2
  | .error => 3

/-! ## Log events and store state (logger.ts) -/

/-- The fields of a `LogEvent` that the store-level claims depend on.
`id` is the unique log id (modelled as `Nat`), the other metadata fields
(`timestamp`, `source`, `sessionId`, ...) are not inspected by the store
operations under verification, except for `message` and `level`. -/
structure LogEvent where
  id : Nat
  level : LogLevel
  message : String
  timestamp : Nat
deriving DecidableEq, Repr

/-- The `LoggerCore` state relevant to the store claims: the ordered
log list plus the `Required<LoggerConfig>` fields read by `log()`. -/
structure LoggerState where
  logs : List LogEvent
  maxLogs : Nat
  minLevel : LogLevel
  enabled : Bool
deriving DecidableEq, Repr

/-- One bounded run of the FIFO rotation loop
`while (this.logs.length > this.config.maxLogs) this.logs.shift();`.
The loop removes one element per iteration, so `xs.length` iterations
always suffice; the explicit bound keeps the function structurally
recursive. -/
def capLoop : Nat → Nat → List α → List α
  | 0, _, xs => xs
  | fuel + 1, m, xs => if m < xs.length then capLoop fuel m xs.tail else xs

/-- The FIFO rotation shared by `store` and `importLogs`. -/
def cap (m : Nat) (xs : List α) : List α :=
  capLoop xs.length m xs

/-- `LoggerCore.store`: push the event, then apply FIFO rotation. -/
def store (m : Nat) (logs : List LogEvent) (e : LogEvent) : List LogEvent :=
  cap m (logs ++ [e])

/-- `LoggerCore.log`: the gate and store steps of the ingestion pipeline
(enrichment is modelled by the caller supplying the built event; the
subscriber fan-out is modelled separately, see `logRun`). -/
def logStep (st : LoggerState) (e : LogEvent) : LoggerState :=
  if st.enabled = false then st
  else if LOG_LEVEL_VALUES e.level < LOG_LEVEL_VALUES st.minLevel then st
  else { st with logs := store st.maxLogs st.logs e }

/-- A sequence of `log()` calls, folded through the store. -/
def logMany (st : LoggerState) (events : List LogEvent) : LoggerState :=
  events.foldl logStep st

/-- `LoggerCore.importLogs`: early-return on an empty argument, filter
out ids already present, prepend, then re-apply the rotation cap. -/
def importLogs (foreign current : List LogEvent) (m : Nat) : List LogEvent :=
  if foreign.isEmpty then current
  else
    cap m ((foreign.filter (fun f => !((current.map LogEvent.id).contains f.id))) ++ current)

/-! ## Basic cap lemmas -/

theorem capLoop_eq_drop (m : Nat) :
    ∀ (fuel : Nat) (xs : List α), xs.length - m ≤ fuel →
      capLoop fuel m xs = xs.drop (xs.length - m) := by
  intro fuel
  induction fuel with
  | zero =>
    intro xs hx
    have h0 : xs.length - m = 0 := by omega
    rw [capLoop, h0, List.drop_zero]
  | succ fuel ih =>
    intro xs hx
    rw [capLoop]
    by_cases h : m < xs.length
    · rw [if_pos h]
      match xs, h with
      | x :: xs, h =>
        have h1 : xs.length - m ≤ fuel := by
          simp only [List.length_cons] at hx
          omega
        rw [List.tail_cons, ih xs h1]
        have h2 : (x :: xs).length - m = (xs.length - m) + 1 := by
          simp only [List.length_cons] at h ⊢
          omega
        rw [h2, List.drop_succ_cons]
    · rw [if_neg h]
      have h0 : xs.length - m = 0 := by omega
      rw [h0, List.drop_zero]

theorem cap_eq_drop (m : Nat) (xs : List α) :
    cap m xs = xs.drop (xs.length - m) :=
  capLoop_eq_drop m xs.length xs (by omega)

theorem cap_of_length_le {m : Nat} {xs : List α} (h : xs.length ≤ m) :
    cap m xs = xs := by
  rw [cap_eq_drop]
  have : xs.length - m = 0 := by omega
  rw [this, List.drop_zero]

theorem length_cap (m : Nat) (xs : List α) :
    (cap m xs).length = min m xs.length := by
  rw [cap_eq_drop, List.length_drop]
  omega

/-- Re-capping after appending to an already-capped list is the same as
capping the whole append: rotation keeps exactly the last `m` entries. -/
theorem cap_append_cap (m : Nat) (xs ys : List α) :
    cap m (cap m xs ++ ys) = cap m (xs ++ ys) := by
  by_cases h : xs.length ≤ m
  · rw [cap_of_length_le h]
  · push_neg at h
    rw [cap_eq_drop, cap_eq_drop, cap_eq_drop, List.drop_append_eq_append_drop,
      List.drop_append_eq_append_drop, List.drop_drop]
    simp only [List.length_append, List.length_drop]
    have e1 : xs.length - m + (xs.length - (xs.length - m) + ys.length - m)
        = xs.length + ys.length - m := by omega
    have e2 : xs.length - (xs.length - m) + ys.length - m - (xs.length - (xs.length - m))
        = xs.length + ys.length - m - xs.length := by omega
    rw [e1, e2]

/-- When the cap is already saturated (`xs.length = m`), prepending any
prefix and re-capping returns `xs` unchanged. -/
theorem cap_append_of_length_eq {m : Nat} {xs : List α} (ys : List α)
    (h : xs.length = m) : cap m (ys ++ xs) = xs := by
  rw [cap_eq_drop, List.length_append, h]
  have : ys.length + m - m = ys.length := by omega
  rw [this, List.drop_append_eq_append_drop, List.drop_length]
  simp

/-! ## Ingestion and retention (claims C1, C2) -/

/-- A sequence of `log()` calls that all pass the enabled/min-level gate
folds to a single capped append: the store retains exactly the tail of
the call sequence. -/
theorem logMany_logs (evs : List LogEvent) (st : LoggerState)
    (hen : st.enabled = true)
    (hlevel : ∀ e ∈ evs, LOG_LEVEL_VALUES st.minLevel ≤ LOG_LEVEL_VALUES e.level)
    (hlen : st.logs.length ≤ st.maxLogs) :
    (logMany st evs).logs = cap st.maxLogs (st.logs ++ evs) := by
  induction evs generalizing st with
  | nil =>
    simp only [logMany, List.foldl_nil, List.append_nil]
    rw [cap_of_length_le hlen]
  | cons e evs ih =>
    have hpass := hlevel e (List.mem_cons_self e evs)
    have hstep : logStep st e = { st with logs := cap st.maxLogs (st.logs ++ [e]) } := by
      simp [logStep, hen, store, Nat.not_lt.mpr hpass]
    have hfold : logMany st (e :: evs) = logMany (logStep st e) evs := by
      simp [logMany]
    rw [hfold, hstep]
    have hlen' : (cap st.maxLogs (st.logs ++ [e])).length ≤ st.maxLogs := by
      rw [length_cap]; omega
    rw [ih { st with logs := cap st.maxLogs (st.logs ++ [e]) } hen
      (fun x hx => hlevel x (List.mem_cons_of_mem e hx)) hlen']
    simp only [cap_append_cap, List.append_assoc, List.singleton_append]

/-- C1: for every sequence of `log()` calls exceeding `maxLogs`
(`maxLogs ≥ 1`) that passes the level gate, `getLogs()` has exactly
`maxLogs` entries, namely the most recent calls in call order; with
`maxLogs = 3` and messages "1","2","3","4" the store retains
["2","3","4"]. -/
theorem maxLogs_retention (m : Nat) (minL : LogLevel) (calls : List LogEvent)
    (hm : 1 ≤ m) (hlen : m < calls.length)
    (hpass : ∀ e ∈ calls, LOG_LEVEL_VALUES minL ≤ LOG_LEVEL_VALUES e.level) :
    ((logMany ⟨[], m, minL, true⟩ calls).logs = calls.drop (calls.length - m)
      ∧ (logMany ⟨[], m, minL, true⟩ calls).logs.length = m)
    ∧ (logMany ⟨[], 3, .debug, true⟩
        [⟨1, .info, "1", 0⟩, ⟨2, .info, "2", 1⟩, ⟨3, .info, "3", 2⟩,
          ⟨4, .info, "4", 3⟩]).logs.map LogEvent.message = ["2", "3", "4"] := by
  refine ⟨?_, by decide⟩
  have h := logMany_logs calls ⟨[], m, minL, true⟩ rfl hpass (by simp)
  simp only [List.nil_append] at h
  rw [h, cap_eq_drop]
  refine ⟨rfl, ?_⟩
  rw [List.length_drop]
  omega

/-- Witness for `maxLogs_retention` at `maxLogs = 2` and three calls. -/
theorem maxLogs_retention_witness :
    ((logMany ⟨[], 2, .debug, true⟩
        [⟨1, .info, "a", 0⟩, ⟨2, .warn, "b", 1⟩, ⟨3, .error, "c", 2⟩]).logs
      = [⟨2, .warn, "b", 1⟩, ⟨3, .error, "c", 2⟩])
    ∧ (logMany ⟨[], 2, .debug, true⟩
        [⟨1, .info, "a", 0⟩, ⟨2, .warn, "b", 1⟩, ⟨3, .error, "c", 2⟩]).logs.length = 2 := by
  have h := (maxLogs_retention 2 .debug
    [⟨1, .info, "a", 0⟩, ⟨2, .warn, "b", 1⟩, ⟨3, .error, "c", 2⟩]
    (by decide) (by decide) (by decide)).1
  exact ⟨by rw [h.1]; decide, h.2⟩

/-- C2 counterexample: with `maxLogs = 0`, logging is enabled and the
level gate passes, yet the event does not appear in `getLogs()` — the
push is immediately undone by the rotation loop. -/
theorem stored_iff_gate_counterexample :
    (⟨0, .info, "m", 0⟩ : LogEvent) ∉
        (logStep ⟨[], 0, .debug, true⟩ ⟨0, .info, "m", 0⟩).logs
      ∧ (⟨[], 0, .debug, true⟩ : LoggerState).enabled = true
      ∧ LOG_LEVEL_VALUES (⟨[], 0, .debug, true⟩ : LoggerState).minLevel
          ≤ LOG_LEVEL_VALUES LogLevel.info := by
  refine ⟨?_, rfl, by decide⟩
  intro h
  simp only [logStep, store] at h
  revert h
  decide

/-- C2 (amended): an event with a fresh id is stored (appears in
`getLogs()`) iff logging is enabled, the event's level is at least the
configured minimum, and `maxLogs ≥ 1`. -/
theorem stored_iff_gate (st : LoggerState) (e : LogEvent)
    (hfresh : ∀ x ∈ st.logs, x.id ≠ e.id) :
    e ∈ (logStep st e).logs
      ↔ st.enabled = true
        ∧ LOG_LEVEL_VALUES st.minLevel ≤ LOG_LEVEL_VALUES e.level
        ∧ 1 ≤ st.maxLogs := by
  have hne : e ∉ st.logs := fun hmem => hfresh e hmem rfl
  constructor
  · intro hmem
    by_cases hen : st.enabled = true
    · by_cases hlev : LOG_LEVEL_VALUES e.level < LOG_LEVEL_VALUES st.minLevel
      · exfalso
        simp [logStep, hen, hlev] at hmem
        exact hne hmem
      · refine ⟨hen, by omega, ?_⟩
        by_contra hzero
        have hz : st.maxLogs = 0 := by omega
        simp [logStep, hen, hlev, store, hz, cap_eq_drop] at hmem
    · exfalso
      have hen' : st.enabled = false := by
        cases h : st.enabled
        · rfl
        · exact absurd h hen
      simp [logStep, hen'] at hmem
      exact hne hmem
  · rintro ⟨hen, hlev, hm⟩
    simp only [logStep, hen, Bool.true_eq_false, if_false,
      Nat.not_lt.mpr hlev, store, cap_eq_drop]
    rw [List.drop_append_eq_append_drop]
    have h0 : (st.logs ++ [e]).length - st.maxLogs - st.logs.length = 0 := by
      rw [List.length_append]
      simp only [List.length_cons, List.length_nil]
      omega
    rw [h0, List.drop_zero]
    exact List.mem_append_right _ (List.mem_singleton_self e)

/-- Witness for `stored_iff_gate`: a fresh event on an enabled default
store is stored. -/
theorem stored_iff_gate_witness :
    (⟨5, .warn, "w", 7⟩ : LogEvent) ∈
      (logStep ⟨[⟨1, .info, "a", 0⟩], 1000, .debug, true⟩ ⟨5, .warn, "w", 7⟩).logs :=
  (stored_iff_gate ⟨[⟨1, .info, "a", 0⟩], 1000, .debug, true⟩ ⟨5, .warn, "w", 7⟩
    (by decide)).mpr ⟨rfl, by decide, by decide⟩

/-! ## Import / rehydration (claim C7) -/

/-- C7: `importLogs` is idempotent under repeated identical input —
re-importing the same foreign list produces the identical store, with
no duplicate growth, for every store content and cap. -/
theorem importLogs_idempotent (foreign current : List LogEvent) (m : Nat) :
    importLogs foreign (importLogs foreign current m) m
      = importLogs foreign current m := by
  by_cases hF : foreign.isEmpty
  · simp [importLogs, hF]
  · set F' := foreign.filter
      (fun f => !((current.map LogEvent.id).contains f.id)) with hF'
    have h1 : importLogs foreign current m = cap m (F' ++ current) := by
      rw [importLogs, if_neg (by simp [hF])]
    by_cases hsmall : (F' ++ current).length ≤ m
    · -- No eviction: every foreign id now occurs in the store, so the
      -- second import filters everything out and early-returns.
      have hcap : cap m (F' ++ current) = F' ++ current :=
        cap_of_length_le hsmall
      have hfilter : (foreign.filter
          (fun f => !(((F' ++ current).map LogEvent.id).contains f.id))) = [] := by
        rw [List.filter_eq_nil_iff]
        intro f hf
        have hmem : f.id ∈ (F' ++ current).map LogEvent.id := by
          rw [List.map_append]
          by_cases hcur : f.id ∈ current.map LogEvent.id
          · exact List.mem_append_right _ hcur
          · apply List.mem_append_left
            refine List.mem_map_of_mem LogEvent.id ?_
            rw [hF', List.mem_filter]
            refine ⟨hf, ?_⟩
            simpa using hcur
        simp only [Bool.not_eq_true', Bool.not_eq_false]
        exact List.elem_eq_true_of_mem hmem
      rw [h1, hcap, importLogs]
      rw [if_neg (by simp [hF]), hfilter]
      simpa using cap_of_length_le hsmall
    · -- Eviction happened: the store is saturated at length `m`, so
      -- whatever the second import prepends is evicted right back.
      have hsat : (cap m (F' ++ current)).length = m := by
        rw [length_cap]; omega
      rw [h1, importLogs, if_neg (by simp [hF])]
      exact cap_append_of_length_eq _ hsat

/-! ## Subscriber fan-out (claim C3)

`LoggerCore.notify` iterates the subscriber set and wraps each call in
its own try/catch. A subscriber is modelled by its registration id and
whether its callback throws; `invokeSub` is the JavaScript call, with a
thrown exception as `Except.error`. -/

structure Subscriber where
  sid : Nat
  throwsOn : Bool
deriving DecidableEq, Repr

/-- Calling a subscriber callback: throwing callbacks raise. -/
def invokeSub (s : Subscriber) (_e : LogEvent) : Except Unit Unit :=
  if s.throwsOn then Except.error () else Except.ok ()

/-- `LoggerCore.notify`: `for (const subscriber of this.subscribers)
{ try { subscriber(event) } catch { } }`. Returns the trace of
invocations: `(subscriber id, event passed, completed normally)`. The
`match` is the per-subscriber catch. -/
def notifyRun : List Subscriber → LogEvent → List (Nat × LogEvent × Bool)
  | [], _ => []
  | s :: ss, e =>
    (s.sid, e,
      match invokeSub s e with
      | .ok _ => true
      | .error _ => false) :: notifyRun ss e

/-- Logger state together with the subscriber registry. -/
structure LoggerFull where
  state : LoggerState
  subscribers : List Subscriber
deriving DecidableEq, Repr

/-- `LoggerCore.log` including step 4 (distribute): gate, store with
rotation, then notify. The result is `Except` so that a JavaScript
exception escaping to the caller would be visible as `.error`; the only
throw sites are the subscriber callbacks, and `notifyRun` catches each
one, so the outer zero-throw catch never engages. -/
def logRun (lf : LoggerFull) (e : LogEvent) :
    Except Unit (LoggerFull × List (Nat × LogEvent × Bool)) :=
  if lf.state.enabled = false then Except.ok (lf, [])
  else if LOG_LEVEL_VALUES e.level < LOG_LEVEL_VALUES lf.state.minLevel then
    Except.ok (lf, [])
  else
    Except.ok
      ({ lf with state := { lf.state with logs := store lf.state.maxLogs lf.state.logs e } },
        notifyRun lf.subscribers e)

theorem notifyRun_eq_map (subs : List Subscriber) (e : LogEvent) :
    notifyRun subs e = subs.map (fun s => (s.sid, e, !s.throwsOn)) := by
  induction subs with
  | nil => rfl
  | cons s ss ih =>
    rw [notifyRun, ih]
    rw [List.map_cons]
    congr 1
    cases h : s.throwsOn <;> simp [invokeSub, h]

/-- C3: when some subscribers throw, `log()` still returns normally
(`Except.ok`), the trace invokes each registered subscriber exactly once
with the stored event, in registration order (it is exactly the map over
the registry), and every non-throwing subscriber completes. -/
theorem log_survives_throwing_subscribers (lf : LoggerFull) (e : LogEvent)
    (hen : lf.state.enabled = true)
    (hlev : LOG_LEVEL_VALUES lf.state.minLevel ≤ LOG_LEVEL_VALUES e.level) :
    logRun lf e = Except.ok
      ({ lf with state :=
          { lf.state with logs := store lf.state.maxLogs lf.state.logs e } },
        lf.subscribers.map (fun s => (s.sid, e, !s.throwsOn)))
    ∧ ∀ s ∈ lf.subscribers, s.throwsOn = false →
        (s.sid, e, true) ∈ notifyRun lf.subscribers e := by
  constructor
  · rw [logRun]
    rw [if_neg (by rw [hen]; exact fun h => Bool.noConfusion h)]
    rw [if_neg (by omega), notifyRun_eq_map]
  · intro s hs hnothrow
    rw [notifyRun_eq_map]
    have hel : (s.sid, e, !s.throwsOn) ∈
        lf.subscribers.map (fun s => (s.sid, e, !s.throwsOn)) :=
      List.mem_map_of_mem _ hs
    rw [hnothrow, Bool.not_false] at hel
    exact hel

/-- Witness for `log_survives_throwing_subscribers`: two subscribers of
which the first throws; the call returns ok and the second still runs. -/
theorem log_survives_throwing_subscribers_witness :
    logRun ⟨⟨[], 10, .debug, true⟩, [⟨1, true⟩, ⟨2, false⟩]⟩ ⟨0, .info, "m", 0⟩
      = Except.ok
        (⟨⟨[⟨0, .info, "m", 0⟩], 10, .debug, true⟩, [⟨1, true⟩, ⟨2, false⟩]⟩,
          [(1, ⟨0, .info, "m", 0⟩, false), (2, ⟨0, .info, "m", 0⟩, true)]) := by
  have h := (log_survives_throwing_subscribers
    ⟨⟨[], 10, .debug, true⟩, [⟨1, true⟩, ⟨2, false⟩]⟩ ⟨0, .info, "m", 0⟩
    rfl (by decide)).1
  rw [h]
  rfl

/-! ## Span lifecycle (claim C6)

`LogSpan.finish` from logger.ts; `_ended`, `endTime`, `duration`,
`status` are the observable fields. `fail(error?)` additionally emits an
error-level log before finishing, which does not touch any span field,
so the span-state model keeps only the terminal transition. -/

inductive SpanStatus where
  | running
  | success
  | error
deriving DecidableEq, Repr

structure SpanEvent where
  id : Nat
  name : String
  startTime : Int
  status : SpanStatus
  endTime : Option Int
  duration : Option Int
deriving DecidableEq, Repr

structure LogSpan where
  event : SpanEvent
  ended : Bool
deriving DecidableEq, Repr

/-- `LogSpan.finish`: `if (this._ended) return; this._ended = true;
this._event.endTime = Date.now(); this._event.duration = endTime -
startTime; this._event.status = status;`. -/
def finish (sp : LogSpan) (status : SpanStatus) (now : Int) : LogSpan :=
  if sp.ended then sp
  else
    { ended := true,
      event := { sp.event with
        endTime := some now,
        duration := some (now - sp.event.startTime),
        status := status } }

/-- `LogSpan.end`: finish with success (named `endSpan`, `end` is a
Lean keyword). -/
def endSpan (sp : LogSpan) (now : Int) : LogSpan :=
  finish sp .success now

/-- `LogSpan.fail`: finish with error status. -/
def failSpan (sp : LogSpan) (now : Int) : LogSpan :=
  finish sp .error now

/-- C6: the first terminal call on a running span stamps `status`,
`endTime` and `duration = endTime - startTime` (non-negative when the
clock has not gone backwards since the span started); any further
`end()`/`fail()` call leaves the span unchanged. -/
theorem span_finish_idempotent (sp : LogSpan) (s1 s2 : SpanStatus) (t1 t2 : Int)
    (hrun : sp.ended = false) (hclock : sp.event.startTime ≤ t1) :
    finish (finish sp s1 t1) s2 t2 = finish sp s1 t1
      ∧ (finish sp s1 t1).event.status = s1
      ∧ (finish sp s1 t1).event.endTime = some t1
      ∧ (finish sp s1 t1).event.duration = some (t1 - sp.event.startTime)
      ∧ ∀ d, (finish sp s1 t1).event.duration = some d → 0 ≤ d := by
  have h1 : finish sp s1 t1 =
      { ended := true,
        event := { sp.event with
          endTime := some t1,
          duration := some (t1 - sp.event.startTime),
          status := s1 } } := by
    rw [finish, if_neg (by rw [hrun]; exact fun h => Bool.noConfusion h)]
  refine ⟨?_, by rw [h1], by rw [h1], by rw [h1], ?_⟩
  · rw [h1, finish]
    rfl
  · intro d hd
    rw [h1] at hd
    simp only [Option.some.injEq] at hd
    omega

/-- Witness for `span_finish_idempotent`: ending a span twice (first
`end()`, then `fail()`) keeps the first terminal state. -/
theorem span_finish_idempotent_witness :
    failSpan (endSpan ⟨⟨1, "checkout", 5, .running, none, none⟩, false⟩ 9) 12
        = endSpan ⟨⟨1, "checkout", 5, .running, none, none⟩, false⟩ 9
      ∧ (endSpan ⟨⟨1, "checkout", 5, .running, none, none⟩, false⟩ 9).event.duration
        = some 4 := by
  have h := span_finish_idempotent ⟨⟨1, "checkout", 5, .running, none, none⟩, false⟩
    .success .error 9 12 rfl (by decide)
  exact ⟨h.1, h.2.2.2.1.trans (by decide)⟩

/-! ## Crash persistence bridge (claim C8)

persistence.ts module state: the durable storage area (liveness marker
`devlogger_session_active` and the persisted-logs key), the module flags
`isEnabled` / `wasUncleanShutdown`, and the logger singleton's store.
The durable logs key holds whatever JSON.parse produced: `notArray` for
corrupted / non-array payloads, otherwise an array whose entries either
pass the shape validation of `loadPersistedLogs` (`valid e`) or fail it
(`invalid`). -/

inductive RawRecord where
  | valid (e : LogEvent)
  | invalid
deriving DecidableEq, Repr

inductive RawPersist where
  | notArray
  | arr (rs : List RawRecord)
deriving DecidableEq, Repr

structure PersistState where
  storageAvailable : Bool
  flagActive : Bool
  storedRaw : Option RawPersist
  isEnabled : Bool
  wasUncleanShutdown : Bool
  lstate : LoggerState
deriving DecidableEq, Repr

/-- `detectCrash`: the marker key is `'active'` from a previous session
(and storage is reachable). -/
def detectCrash (st : PersistState) : Bool :=
  st.storageAvailable && st.flagActive

/-- `setActiveFlag`: write the liveness marker, ignoring storage
errors. -/
def setActiveFlag (st : PersistState) : PersistState :=
  if st.storageAvailable then { st with flagActive := true } else st

/-- `enable`: if already enabled only the config is merged (no state
field modelled here changes); otherwise the crash check runs first,
then the fresh liveness marker is written, then the bridge subscribes
and flips `isEnabled`. -/
def enable (st : PersistState) : PersistState :=
  if st.isEnabled then st
  else
    let st1 := setActiveFlag { st with wasUncleanShutdown := detectCrash st }
    { st1 with isEnabled := true }

/-- `hadCrash`. -/
def hadCrash (st : PersistState) : Bool :=
  st.wasUncleanShutdown

/-- `loadPersistedLogs`: unreachable storage, missing key, parse
failures and non-arrays all degrade to `[]`; array entries are kept only
if they pass the structural validation. -/
def loadPersistedLogs (st : PersistState) : List LogEvent :=
  if st.storageAvailable = false then []
  else
    match st.storedRaw with
    | none => []
    | some .notArray => []
    | some (.arr rs) =>
      rs.filterMap fun r =>
        match r with
        | .valid e => some e
        | .invalid => none

/-- `logger.importLogs` applied to the singleton state. -/
def importLogsInto (lst : LoggerState) (foreign : List LogEvent) : LoggerState :=
  { lst with logs := importLogs foreign lst.logs lst.maxLogs }

/-- `rehydrate`: load and validate the durable snapshot, import it into
the logger, and return the count of entries found in storage. -/
def rehydrate (st : PersistState) : PersistState × Nat :=
  let logs := loadPersistedLogs st
  if logs.length = 0 then (st, 0)
  else ({ st with lstate := importLogsInto st.lstate logs }, logs.length)

/-- C8: with the liveness marker left set by an unclean shutdown,
`enable()` flags the crash (`hadCrash()` true); the crash check reads
the marker before the new one is written — starting instead without the
marker always yields `hadCrash() = false`; and `rehydrate()` over a
durable store of exactly two valid records returns 2 and fills the
initially empty store with exactly those two events. -/
theorem enable_detects_crash_and_rehydrates (st : PersistState) (e1 e2 : LogEvent)
    (hstor : st.storageAvailable = true)
    (hflag : st.flagActive = true)
    (hdis : st.isEnabled = false)
    (hempty : st.lstate.logs = [])
    (hmax : 2 ≤ st.lstate.maxLogs)
    (hraw : st.storedRaw = some (.arr [.valid e1, .valid e2])) :
    hadCrash (enable st) = true
    ∧ (rehydrate (enable st)).2 = 2
    ∧ (rehydrate (enable st)).1.lstate.logs = [e1, e2]
    ∧ (∀ st' : PersistState, st'.isEnabled = false → st'.flagActive = false →
        hadCrash (enable st') = false) := by
  have hen : enable st =
      { st with wasUncleanShutdown := true, flagActive := true, isEnabled := true } := by
    rw [enable, if_neg (by rw [hdis]; exact fun h => Bool.noConfusion h)]
    simp [detectCrash, setActiveFlag, hstor, hflag]
  have hload : loadPersistedLogs (enable st) = [e1, e2] := by
    rw [hen]
    rw [loadPersistedLogs]
    simp only [hstor, hraw]
    rfl
  have himp : importLogsInto (enable st).lstate [e1, e2] =
      { (enable st).lstate with logs := [e1, e2] } := by
    rw [importLogsInto]
    congr 1
    rw [importLogs, if_neg (by simp)]
    rw [hen]
    simp only [hempty]
    rw [List.append_nil, List.filter_eq_self.mpr (by intro a _; simp)]
    exact cap_of_length_le (by simpa using hmax)
  refine ⟨by rw [hen]; rfl, ?_, ?_, ?_⟩
  · rw [rehydrate]
    simp only [hload]
    rfl
  · rw [rehydrate]
    simp only [hload, himp]
    rfl
  · intro st' h1 h2
    rw [enable, if_neg (by rw [h1]; exact fun h => Bool.noConfusion h)]
    cases h3 : st'.storageAvailable <;>
      simp [detectCrash, setActiveFlag, hadCrash, h2, h3]

/-- Witness for `enable_detects_crash_and_rehydrates` on a concrete
marker-set, two-record storage state. -/
theorem enable_detects_crash_and_rehydrates_witness :
    hadCrash (enable ⟨true, true,
        some (.arr [.valid ⟨1, .info, "a", 0⟩, .valid ⟨2, .warn, "b", 1⟩]),
        false, false, ⟨[], 500, .debug, true⟩⟩) = true
    ∧ (rehydrate (enable ⟨true, true,
        some (.arr [.valid ⟨1, .info, "a", 0⟩, .valid ⟨2, .warn, "b", 1⟩]),
        false, false, ⟨[], 500, .debug, true⟩⟩)).2 = 2 := by
  have h := enable_detects_crash_and_rehydrates ⟨true, true,
    some (.arr [.valid ⟨1, .info, "a", 0⟩, .valid ⟨2, .warn, "b", 1⟩]),
    false, false, ⟨[], 500, .debug, true⟩⟩
    ⟨1, .info, "a", 0⟩ ⟨2, .warn, "b", 1⟩ rfl rfl rfl rfl (by decide) rfl
  exact ⟨h.1, h.2.1⟩

/-! ## Value normalizer `safeClone` (claims C4, C5, C9)

JavaScript values are modelled as primitives plus references into a
finite heap of objects. An object field is read through a getter that
either yields a value or throws (`gthrow`, the hostile-getter case);
`enumThrows` models an object whose own enumeration (`Object.keys`)
throws. Errors, Dates and RegExps are heap nodes cloned to their tagged
representations. The mutable `WeakSet` `seen` is threaded explicitly as
a list of visited addresses. -/

inductive JPrim where
  | jundef
  | jnull
  | jbool (b : Bool)
  | jnum (n : Int)
  | jstr (s : String)
  | jbig (n : Int)
deriving DecidableEq, Repr

inductive JVal where
  | prim (p : JPrim)
  | ref (a : Nat)
deriving DecidableEq, Repr

inductive GetRes where
  | gval (v : JVal)
  | gthrow
deriving DecidableEq, Repr

/-- Heap nodes. The special-type branches of `safeClone` read their
data through calls that sit *outside* any try/catch and can therefore
throw out of `safeClone` itself: `value.name`/`value.message`/
`value.stack` on an Error-branded object with hostile accessors,
`value.toISOString()` on an invalid Date (`new Date(NaN)` throws
`RangeError: Invalid time value`), and `value.toString()` on a
RegExp-branded object. The Boolean on each special node records whether
that access throws; when it is `false` the strings carry the values the
accesses produce. -/
inductive Node where
  | errNode (accessThrows : Bool) (name message stack : String)
  | dateNode (invalid : Bool) (iso : String)
  | regexpNode (toStringThrows : Bool) (src : String)
  | arrNode (elems : List JVal)
  | objNode (enumThrows : Bool) (fields : List (String × GetRes))
deriving DecidableEq, Repr

/-! Output values of the normalizer (a tree, no references). Stated as
a mutual inductive so that functions over it stay structurally
recursive. -/
mutual
inductive JOut where
  | oundef
  | onull
  | obool (b : Bool)
  | onum (n : Int)
  | ostr (s : String)
  | obig (n : Int)
  | oarr (elems : JOutElems)
  | oobj (fields : JOutFields)
inductive JOutElems where
  | onil
  | ocons (v : JOut) (rest : JOutElems)
inductive JOutFields where
  | ofnil
  | ofcons (k : String) (v : JOut) (rest : JOutFields)
end

/-- Primitives pass through `safeClone` unchanged
(`typeof value !== 'object'`). -/
def primOut : JPrim → JOut
  | .jundef => .oundef
  | .jnull => .onull
  | .jbool b => .obool b
  | .jnum n => .onum n
  | .jstr s => .ostr s
  | .jbig n => .obig n

/-- Result of one `safeClone` call: a value, or a JavaScript exception
propagating out of the call (the visited `WeakSet`, mutated in place,
keeps its additions either way). -/
inductive CloneVRes where
  | cok (o : JOut) (seen : List Nat)
  | cthrow (seen : List Nat)

/-- Result of `value.map((item) => this.safeClone(item, seen))`: the
array branch has no try/catch, so an element's exception aborts the map
and propagates. -/
inductive CloneLRes where
  | lok (os : JOutElems) (seen : List Nat)
  | lthrow (seen : List Nat)

/-- Result of the `for (const key of Object.keys(value))` loop inside
the try: either all fields cloned, or something threw part-way — a
hostile getter, or an exception escaping the recursive `safeClone` of a
field value (an invalid Date below, say); both are caught by the
object's try (the `seen` additions made so far are kept — the WeakSet
is mutated in place). -/
inductive FieldsRes where
  | fok (fs : JOutFields) (seen : List Nat)
  | fthrew (seen : List Nat)

/-! `LoggerCore.safeClone(value, seen)`, fuel-indexed: every call
consumes one unit of fuel, so the recursion is structural; `heapFuel`
below always suffices (theorem `cloneValF_isSome`), which is the
termination claim. `cloneListF` is `value.map((item) =>
this.safeClone(item, seen))`; `cloneFieldsF` is the keyed loop whose
surrounding try/catch turns a getter throw into the
`'[Uncloneable Object]'` sentinel for the whole object. -/
mutual
def cloneValF (h : List Node) : Nat → JVal → List Nat → Option CloneVRes
  | 0, _, _ => none
  | _ + 1, .prim p, seen => some (.cok (primOut p) seen)
  | fuel + 1, .ref a, seen =>
    match h.get? a with
    | none => some (.cok .onull seen)
    | some (.errNode accessThrows name message stack) =>
      -- `value.name` etc. are read outside any try: a throwing accessor
      -- escapes this safeClone call
      if accessThrows then some (.cthrow seen)
      else
        some (.cok (.oobj (.ofcons "__type" (.ostr "Error") (.ofcons "name" (.ostr name)
          (.ofcons "message" (.ostr message) (.ofcons "stack" (.ostr stack) .ofnil)))))
          seen)
    | some (.dateNode invalid iso) =>
      -- `value.toISOString()` is outside any try: `new Date(NaN)` makes
      -- it throw RangeError, escaping this safeClone call
      if invalid then some (.cthrow seen)
      else
        some (.cok (.oobj (.ofcons "__type" (.ostr "Date")
          (.ofcons "value" (.ostr iso) .ofnil))) seen)
    | some (.regexpNode toStringThrows src) =>
      if toStringThrows then some (.cthrow seen)
      else
        some (.cok (.oobj (.ofcons "__type" (.ostr "RegExp")
          (.ofcons "value" (.ostr src) .ofnil))) seen)
    | some (.arrNode elems) =>
      if a ∈ seen then some (.cok (.ostr "[Circular Reference]") seen)
      else
        match cloneListF h fuel elems (a :: seen) with
        | none => none
        | some (.lok os s2) => some (.cok (.oarr os) s2)
        | some (.lthrow s2) => some (.cthrow s2)
    | some (.objNode enumThrows fields) =>
      if a ∈ seen then some (.cok (.ostr "[Circular Reference]") seen)
      else if enumThrows then some (.cok (.ostr "[Uncloneable Object]") (a :: seen))
      else
        match cloneFieldsF h fuel fields (a :: seen) with
        | none => none
        | some (.fok fs s2) => some (.cok (.oobj fs) s2)
        | some (.fthrew s2) => some (.cok (.ostr "[Uncloneable Object]") s2)
def cloneListF (h : List Node) : Nat → List JVal → List Nat → Option CloneLRes
  | 0, _, _ => none
  | _ + 1, [], seen => some (.lok .onil seen)
  | fuel + 1, v :: vs, seen =>
    match cloneValF h fuel v seen with
    | none => none
    | some (.cthrow s1) => some (.lthrow s1)
    | some (.cok o s1) =>
      match cloneListF h fuel vs s1 with
      | none => none
      | some (.lok os s2) => some (.lok (.ocons o os) s2)
      | some (.lthrow s2) => some (.lthrow s2)
def cloneFieldsF (h : List Node) :
    Nat → List (String × GetRes) → List Nat → Option FieldsRes
  | 0, _, _ => none
  | _ + 1, [], seen => some (.fok .ofnil seen)
  | _ + 1, (_, .gthrow) :: _, seen => some (.fthrew seen)
  | fuel + 1, (k, .gval v) :: rest, seen =>
    match cloneValF h fuel v seen with
    | none => none
    | some (.cthrow s1) => some (.fthrew s1)
    | some (.cok o s1) =>
      match cloneFieldsF h fuel rest s1 with
      | none => none
      | some (.fok fs s2) => some (.fok (.ofcons k o fs) s2)
      | some (.fthrew s2) => some (.fthrew s2)
end

/-- Number of direct children a heap node recurses into. -/
def nodeWidth : Node → Nat
  | .arrNode elems => elems.length
  | .objNode _ fields => fields.length
  | _ => 0

/-- Fuel budget contributed by one unvisited heap node. -/
def nodeCost (nd : Node) : Nat :=
  2 + nodeWidth nd

/-- A fuel amount sufficient for any input over heap `h`. -/
def heapFuel (h : List Node) : Nat :=
  (h.map nodeCost).sum + 1

/-- `safeClone(value)` with the default fresh `seen = new WeakSet()`:
returns the cloned value, or `Except.error` when a JavaScript exception
escapes the call. The `none` (fuel-exhaustion) case is unreachable by
`cloneValF_heapFuel_isSome`. -/
def safeClone (h : List Node) (v : JVal) : Except Unit JOut :=
  match cloneValF h (heapFuel h) v [] with
  | some (.cok o _) => Except.ok o
  | some (.cthrow _) => Except.error ()
  | none => Except.error ()

/-- `LoggerCore.safeCloneData`: `data.map((item) =>
this.safeClone(item))` — each element starts from a fresh visited set,
and the map has no try/catch, so the first element whose clone throws
aborts the map and the exception propagates. -/
def safeCloneData (h : List Node) : List JVal → Except Unit (List JOut)
  | [] => Except.ok []
  | v :: rest =>
    match safeClone h v with
    | .error e => .error e
    | .ok o =>
      match safeCloneData h rest with
      | .error e => .error e
      | .ok os => .ok (o :: os)

/-- No special node whose un-guarded access throws: every Error-branded
node has benign accessors, every Date is valid, every RegExp-branded
node has a benign `toString`. Hostile getters (`gthrow`) and throwing
enumerations are *not* excluded: those sit inside the object branch's
try/catch and never escape. -/
def nodeSpecialsOk : Node → Bool
  | .errNode accessThrows _ _ _ => !accessThrows
  | .dateNode invalid _ => !invalid
  | .regexpNode toStringThrows _ => !toStringThrows
  | _ => true

def heapSpecialsOk (h : List Node) : Bool :=
  h.all nodeSpecialsOk

/-! "`JSON.stringify` accepts this value": among the normalizer's
output shapes, `JSON.stringify` throws exactly on BigInt values. -/
mutual
def noBig : JOut → Bool
  | .obig _ => false
  | .oarr es => noBigElems es
  | .oobj fs => noBigFields fs
  | _ => true
def noBigElems : JOutElems → Bool
  | .onil => true
  | .ocons v rest => noBig v && noBigElems rest
def noBigFields : JOutFields → Bool
  | .ofnil => true
  | .ofcons _ v rest => noBig v && noBigFields rest
end

/-- JSON-serializability of a normalizer output. -/
def jsonSerializable (o : JOut) : Bool :=
  noBig o

/-- No-bigint predicates on the input side. -/
def primNoBig : JPrim → Bool
  | .jbig _ => false
  | _ => true

def valNoBig : JVal → Bool
  | .prim p => primNoBig p
  | .ref _ => true

def nodeNoBig : Node → Bool
  | .arrNode elems => elems.all valNoBig
  | .objNode _ fields =>
    fields.all fun kg =>
      match kg.2 with
      | .gval v => valNoBig v
      | .gthrow => true
  | _ => true

def heapNoBig (h : List Node) : Bool :=
  h.all nodeNoBig

/-! ### Fuel accounting for the clone recursion -/

/-- Total fuel cost of the heap nodes not yet visited. -/
def unseenBudget (h : List Node) (seen : List Nat) : Nat :=
  ((Finset.range h.length).filter (fun a => a ∉ seen)).sum
    (fun a => nodeCost (h.getD a (.arrNode [])))

theorem rangeCost_eq (h : List Node) :
    (∑ a ∈ Finset.range h.length, nodeCost (h.getD a (.arrNode [])))
      = (h.map nodeCost).sum := by
  induction h with
  | nil => simp
  | cons nd h ih =>
    rw [List.length_cons, Finset.sum_range_succ']
    simp only [List.getD_cons_succ, List.getD_cons_zero, List.map_cons, List.sum_cons]
    rw [ih]
    omega

theorem unseenBudget_nil_seen (h : List Node) :
    unseenBudget h [] = (h.map nodeCost).sum := by
  rw [unseenBudget, Finset.filter_true_of_mem (by intro x _; exact List.not_mem_nil x)]
  exact rangeCost_eq h

theorem unseenBudget_anti (h : List Node) {seen seen' : List Nat}
    (hsub : seen ⊆ seen') : unseenBudget h seen' ≤ unseenBudget h seen := by
  apply Finset.sum_le_sum_of_subset
  intro x hx
  rw [Finset.mem_filter] at hx ⊢
  exact ⟨hx.1, fun hmem => hx.2 (hsub hmem)⟩

theorem unseenBudget_cons (h : List Node) {a : Nat} {seen : List Nat}
    (ha : a < h.length) (hnot : a ∉ seen) :
    unseenBudget h (a :: seen) + nodeCost (h.getD a (.arrNode []))
      = unseenBudget h seen := by
  have hfe : (Finset.range h.length).filter (fun x => x ∉ a :: seen)
      = ((Finset.range h.length).filter (fun x => x ∉ seen)).erase a := by
    ext x
    simp only [Finset.mem_filter, Finset.mem_erase, Finset.mem_range,
      List.mem_cons, not_or]
    tauto
  rw [unseenBudget, unseenBudget, hfe]
  exact Finset.sum_erase_add _ _ (by
    rw [Finset.mem_filter, Finset.mem_range]
    exact ⟨ha, hnot⟩)

/-- The visited set only grows during a clone (the `WeakSet` is
add-only), throws included. -/
theorem clone_seen_mono (h : List Node) :
    ∀ fuel : Nat,
      (∀ v seen r, cloneValF h fuel v seen = some r →
        seen ⊆ (match r with | .cok _ s' => s' | .cthrow s' => s'))
      ∧ (∀ vs seen r, cloneListF h fuel vs seen = some r →
        seen ⊆ (match r with | .lok _ s' => s' | .lthrow s' => s'))
      ∧ (∀ fs seen r, cloneFieldsF h fuel fs seen = some r →
          seen ⊆ (match r with | .fok _ s' => s' | .fthrew s' => s')) := by
  intro fuel
  induction fuel with
  | zero =>
    refine ⟨?_, ?_, ?_⟩
    · intro v seen r he
      exact Option.noConfusion he
    · intro vs seen r he
      exact Option.noConfusion he
    · intro fs seen r he
      exact Option.noConfusion he
  | succ fuel ih =>
    obtain ⟨ihv, ihl, ihf⟩ := ih
    refine ⟨?_, ?_, ?_⟩
    · intro v seen r hv
      cases v with
      | prim p =>
        obtain rfl := Option.some.inj hv
        exact List.Subset.refl seen
      | ref a =>
        simp only [cloneValF] at hv
        split at hv
        · obtain rfl := Option.some.inj hv
          exact List.Subset.refl seen
        · split at hv
          · obtain rfl := Option.some.inj hv
            exact List.Subset.refl seen
          · obtain rfl := Option.some.inj hv
            exact List.Subset.refl seen
        · split at hv
          · obtain rfl := Option.some.inj hv
            exact List.Subset.refl seen
          · obtain rfl := Option.some.inj hv
            exact List.Subset.refl seen
        · split at hv
          · obtain rfl := Option.some.inj hv
            exact List.Subset.refl seen
          · obtain rfl := Option.some.inj hv
            exact List.Subset.refl seen
        · -- arrNode
          split at hv
          · obtain rfl := Option.some.inj hv
            exact List.Subset.refl seen
          · split at hv
            · exact Option.noConfusion hv
            · rename_i os s2 heq
              obtain rfl := Option.some.inj hv
              exact fun x hx => ihl _ _ _ heq (List.mem_cons_of_mem a hx)
            · rename_i s2 heq
              obtain rfl := Option.some.inj hv
              exact fun x hx => ihl _ _ _ heq (List.mem_cons_of_mem a hx)
        · -- objNode
          split at hv
          · obtain rfl := Option.some.inj hv
            exact List.Subset.refl seen
          · split at hv
            · obtain rfl := Option.some.inj hv
              exact fun x hx => List.mem_cons_of_mem a hx
            · split at hv
              · exact Option.noConfusion hv
              · rename_i fs s2 heq
                obtain rfl := Option.some.inj hv
                exact fun x hx => ihf _ _ _ heq (List.mem_cons_of_mem a hx)
              · rename_i s2 heq
                obtain rfl := Option.some.inj hv
                exact fun x hx => ihf _ _ _ heq (List.mem_cons_of_mem a hx)
    · intro vs seen r hv
      cases vs with
      | nil =>
        obtain rfl := Option.some.inj hv
        exact List.Subset.refl seen
      | cons v vs =>
        simp only [cloneListF] at hv
        split at hv
        · exact Option.noConfusion hv
        · rename_i s1 heq1
          obtain rfl := Option.some.inj hv
          exact ihv _ _ _ heq1
        · rename_i o s1 heq1
          split at hv
          · exact Option.noConfusion hv
          · rename_i os s2 heq2
            obtain rfl := Option.some.inj hv
            exact fun x hx => ihl _ _ _ heq2 (ihv _ _ _ heq1 hx)
          · rename_i s2 heq2
            obtain rfl := Option.some.inj hv
            exact fun x hx => ihl _ _ _ heq2 (ihv _ _ _ heq1 hx)
    · intro fs seen r hv
      cases fs with
      | nil =>
        obtain rfl := Option.some.inj hv
        exact List.Subset.refl seen
      | cons kg rest =>
        obtain ⟨k, g⟩ := kg
        cases g with
        | gthrow =>
          obtain rfl := Option.some.inj hv
          exact List.Subset.refl seen
        | gval v =>
          simp only [cloneFieldsF] at hv
          split at hv
          · exact Option.noConfusion hv
          · rename_i s1 heq1
            obtain rfl := Option.some.inj hv
            exact ihv _ _ _ heq1
          · rename_i o s1 heq1
            split at hv
            · exact Option.noConfusion hv
            · rename_i fs2 s2 heq2
              obtain rfl := Option.some.inj hv
              exact fun x hx => ihf _ _ _ heq2 (ihv _ _ _ heq1 hx)
            · rename_i s2 heq2
              obtain rfl := Option.some.inj hv
              exact fun x hx => ihf _ _ _ heq2 (ihv _ _ _ heq1 hx)

theorem get?_lt_and_getD {h : List Node} {a : Nat} {nd : Node}
    (hget : h.get? a = some nd) :
    a < h.length ∧ h.getD a (.arrNode []) = nd := by
  refine ⟨(List.get?_eq_some.mp hget).1, ?_⟩
  rw [List.getD_eq_get?, hget]
  rfl

/-- Fuel sufficiency: with a budget covering the unvisited part of the
heap (plus the local worklist), the clone never runs out of fuel —
every call returns a value or an explicit throw. This is the
termination half of the normalizer's contract. -/
theorem clone_isSome (h : List Node) :
    ∀ fuel : Nat,
      (∀ v seen, unseenBudget h seen + 1 ≤ fuel →
        (cloneValF h fuel v seen).isSome = true)
      ∧ (∀ vs seen, unseenBudget h seen + vs.length + 1 ≤ fuel →
          (cloneListF h fuel vs seen).isSome = true)
      ∧ (∀ fs seen, unseenBudget h seen + fs.length + 1 ≤ fuel →
          (cloneFieldsF h fuel fs seen).isSome = true) := by
  intro fuel
  induction fuel with
  | zero =>
    refine ⟨?_, ?_, ?_⟩ <;> intro x seen hb <;> omega
  | succ fuel ih =>
    obtain ⟨ihv, ihl, ihf⟩ := ih
    refine ⟨?_, ?_, ?_⟩
    · intro v seen hb
      cases v with
      | prim p => simp [cloneValF]
      | ref a =>
        simp only [cloneValF]
        split
        · simp
        · split <;> simp
        · split <;> simp
        · split <;> simp
        · rename_i elems hget
          by_cases hmem : a ∈ seen
          · rw [if_pos hmem]
            simp
          · rw [if_neg hmem]
            obtain ⟨ha, hgd⟩ := get?_lt_and_getD hget
            have hbudget := unseenBudget_cons h ha hmem
            rw [hgd] at hbudget
            have hb2 : unseenBudget h (a :: seen) + elems.length + 1 ≤ fuel := by
              simp only [nodeCost, nodeWidth] at hbudget
              omega
            split
            · rename_i heqL
              have hs := ihl elems (a :: seen) hb2
              rw [heqL] at hs
              exact Bool.noConfusion hs
            · simp
            · simp
        · rename_i et fields hget
          by_cases hmem : a ∈ seen
          · rw [if_pos hmem]
            simp
          · rw [if_neg hmem]
            cases et with
            | true => simp
            | false =>
              simp only [Bool.false_eq_true, if_false]
              obtain ⟨ha, hgd⟩ := get?_lt_and_getD hget
              have hbudget := unseenBudget_cons h ha hmem
              rw [hgd] at hbudget
              have hb2 : unseenBudget h (a :: seen) + fields.length + 1 ≤ fuel := by
                simp only [nodeCost, nodeWidth] at hbudget
                omega
              split
              · rename_i heqF
                have hs := ihf fields (a :: seen) hb2
                rw [heqF] at hs
                exact Bool.noConfusion hs
              · simp
              · simp
    · intro vs seen hb
      cases vs with
      | nil => simp [cloneListF]
      | cons v vs =>
        simp only [cloneListF]
        have hb1 : unseenBudget h seen + 1 ≤ fuel := by
          simp only [List.length_cons] at hb
          omega
        split
        · rename_i heq1
          have hs := ihv v seen hb1
          rw [heq1] at hs
          exact Bool.noConfusion hs
        · simp
        · rename_i o s1 heq1
          have hanti : unseenBudget h s1 ≤ unseenBudget h seen :=
            unseenBudget_anti h ((clone_seen_mono h fuel).1 v seen _ heq1)
          have hb2 : unseenBudget h s1 + vs.length + 1 ≤ fuel := by
            simp only [List.length_cons] at hb
            omega
          split
          · rename_i heq2
            have hs := ihl vs s1 hb2
            rw [heq2] at hs
            exact Bool.noConfusion hs
          · simp
          · simp
    · intro fs seen hb
      cases fs with
      | nil => simp [cloneFieldsF]
      | cons kg rest =>
        obtain ⟨k, g⟩ := kg
        cases g with
        | gthrow => simp [cloneFieldsF]
        | gval v =>
          simp only [cloneFieldsF]
          have hb1 : unseenBudget h seen + 1 ≤ fuel := by
            simp only [List.length_cons] at hb
            omega
          split
          · rename_i heq1
            have hs := ihv v seen hb1
            rw [heq1] at hs
            exact Bool.noConfusion hs
          · simp
          · rename_i o s1 heq1
            have hanti : unseenBudget h s1 ≤ unseenBudget h seen :=
              unseenBudget_anti h ((clone_seen_mono h fuel).1 v seen _ heq1)
            have hb2 : unseenBudget h s1 + rest.length + 1 ≤ fuel := by
              simp only [List.length_cons] at hb
              omega
            split
            · rename_i heq2
              have hs := ihf rest s1 hb2
              rw [heq2] at hs
              exact Bool.noConfusion hs
            · simp
            · simp

/-- `heapFuel` always suffices: the top-level clone never hits the fuel
bound, i.e. the recursion always terminates within the explicit
budget. -/
theorem cloneValF_heapFuel_isSome (h : List Node) (v : JVal) :
    (cloneValF h (heapFuel h) v []).isSome = true := by
  apply (clone_isSome h (heapFuel h)).1
  rw [unseenBudget_nil_seen, heapFuel]

/-- If any field of the object carries a throwing getter, the keyed
clone loop ends in the catch: the result is a throw marker (or fuel
exhaustion), never a completed field list. -/
theorem cloneFieldsF_gthrow (h : List Node) :
    ∀ (fuel : Nat) (fields : List (String × GetRes)) (seen : List Nat),
      (∃ k, (k, GetRes.gthrow) ∈ fields) →
      cloneFieldsF h fuel fields seen = none
        ∨ ∃ s', cloneFieldsF h fuel fields seen = some (.fthrew s') := by
  intro fuel
  induction fuel with
  | zero =>
    intro fields seen _
    exact Or.inl rfl
  | succ fuel ih =>
    intro fields seen hmem
    obtain ⟨k, hk⟩ := hmem
    cases fields with
    | nil => exact absurd hk (List.not_mem_nil _)
    | cons kg rest =>
      obtain ⟨k2, g⟩ := kg
      cases g with
      | gthrow => exact Or.inr ⟨seen, rfl⟩
      | gval v =>
        have hkrest : (k, GetRes.gthrow) ∈ rest := by
          rcases List.mem_cons.mp hk with heqp | hr
          · exact absurd heqp (by simp)
          · exact hr
        cases heq1 : cloneValF h fuel v seen with
        | none =>
          exact Or.inl (by simp only [cloneFieldsF, heq1])
        | some r =>
          cases r with
          | cthrow s1 =>
            exact Or.inr ⟨s1, by simp only [cloneFieldsF, heq1]⟩
          | cok o s1 =>
            rcases ih rest s1 ⟨k, hkrest⟩ with hnone | ⟨s2, hthrew⟩
            · exact Or.inl (by simp only [cloneFieldsF, heq1, hnone])
            · exact Or.inr ⟨s2, by simp only [cloneFieldsF, heq1, hthrew]⟩

/-- Completed outputs contain no BigInt when neither the heap nor the
input value does: the only production of `obig` is the passthrough of a
`jbig` primitive. -/
theorem clone_noBig (h : List Node) (hh : heapNoBig h = true) :
    ∀ fuel : Nat,
      (∀ v seen o s', valNoBig v = true →
        cloneValF h fuel v seen = some (.cok o s') → noBig o = true)
      ∧ (∀ vs seen os s', vs.all valNoBig = true →
          cloneListF h fuel vs seen = some (.lok os s') → noBigElems os = true)
      ∧ (∀ fs seen fs2 s',
          (fs.all fun kg =>
            match kg.2 with
            | .gval v => valNoBig v
            | .gthrow => true) = true →
          cloneFieldsF h fuel fs seen = some (.fok fs2 s') →
          noBigFields fs2 = true) := by
  intro fuel
  induction fuel with
  | zero =>
    refine ⟨?_, ?_, ?_⟩
    · intro v seen o s' hnb heq
      exact Option.noConfusion heq
    · intro vs seen os s' hnb heq
      exact Option.noConfusion heq
    · intro fs seen fs2 s' hnb heq
      exact Option.noConfusion heq
  | succ fuel ih =>
    obtain ⟨ihv, ihl, ihf⟩ := ih
    refine ⟨?_, ?_, ?_⟩
    · intro v seen o s' hnb heq
      cases v with
      | prim p =>
        simp only [cloneValF, Option.some.injEq, CloneVRes.cok.injEq] at heq
        rw [← heq.1]
        cases p with
        | jbig n => simp [valNoBig, primNoBig] at hnb
        | jundef => rfl
        | jnull => rfl
        | jbool b => rfl
        | jnum n => rfl
        | jstr s => rfl
      | ref a =>
        simp only [cloneValF] at heq
        split at heq
        · simp only [Option.some.injEq, CloneVRes.cok.injEq] at heq
          rw [← heq.1]
          rfl
        · split at heq
          · exact CloneVRes.noConfusion (Option.some.inj heq)
          · simp only [Option.some.injEq, CloneVRes.cok.injEq] at heq
            rw [← heq.1]
            rfl
        · split at heq
          · exact CloneVRes.noConfusion (Option.some.inj heq)
          · simp only [Option.some.injEq, CloneVRes.cok.injEq] at heq
            rw [← heq.1]
            rfl
        · split at heq
          · exact CloneVRes.noConfusion (Option.some.inj heq)
          · simp only [Option.some.injEq, CloneVRes.cok.injEq] at heq
            rw [← heq.1]
            rfl
        · -- arrNode
          rename_i elems hget
          split at heq
          · simp only [Option.some.injEq, CloneVRes.cok.injEq] at heq
            rw [← heq.1]
            rfl
          · split at heq
            · exact Option.noConfusion heq
            · rename_i os s2 heqL
              simp only [Option.some.injEq, CloneVRes.cok.injEq] at heq
              rw [← heq.1]
              have hndmem : Node.arrNode elems ∈ h := List.get?_mem hget
              have hnd := List.all_eq_true.mp hh _ hndmem
              simp only [nodeNoBig] at hnd
              exact ihl elems (a :: seen) os s2 hnd heqL
            · exact CloneVRes.noConfusion (Option.some.inj heq)
        · -- objNode
          rename_i et fields hget
          split at heq
          · simp only [Option.some.injEq, CloneVRes.cok.injEq] at heq
            rw [← heq.1]
            rfl
          · split at heq
            · simp only [Option.some.injEq, CloneVRes.cok.injEq] at heq
              rw [← heq.1]
              rfl
            · split at heq
              · exact Option.noConfusion heq
              · rename_i fs2 s2 heqF
                simp only [Option.some.injEq, CloneVRes.cok.injEq] at heq
                rw [← heq.1]
                have hndmem : Node.objNode et fields ∈ h := List.get?_mem hget
                have hnd := List.all_eq_true.mp hh _ hndmem
                simp only [nodeNoBig] at hnd
                exact ihf fields (a :: seen) fs2 s2 hnd heqF
              · rename_i s2 heqF
                simp only [Option.some.injEq, CloneVRes.cok.injEq] at heq
                rw [← heq.1]
                rfl
    · intro vs seen os s' hnb heq
      cases vs with
      | nil =>
        simp only [cloneListF, Option.some.injEq, CloneLRes.lok.injEq] at heq
        rw [← heq.1]
        rfl
      | cons v vs =>
        simp only [cloneListF] at heq
        split at heq
        · exact Option.noConfusion heq
        · exact CloneLRes.noConfusion (Option.some.inj heq)
        · rename_i o s1 heq1
          split at heq
          · exact Option.noConfusion heq
          · rename_i os2 s2 heq2
            simp only [Option.some.injEq, CloneLRes.lok.injEq] at heq
            rw [← heq.1]
            simp only [List.all_cons, Bool.and_eq_true] at hnb
            show (noBig o && noBigElems os2) = true
            rw [ihv v seen o s1 hnb.1 heq1, ihl vs s1 os2 s2 hnb.2 heq2]
            rfl
          · exact CloneLRes.noConfusion (Option.some.inj heq)
    · intro fs seen fs2 s' hnb heq
      cases fs with
      | nil =>
        simp only [cloneFieldsF, Option.some.injEq, FieldsRes.fok.injEq] at heq
        rw [← heq.1]
        rfl
      | cons kg rest =>
        obtain ⟨k, g⟩ := kg
        cases g with
        | gthrow =>
          simp only [cloneFieldsF] at heq
          exact FieldsRes.noConfusion (Option.some.inj heq)
        | gval v =>
          simp only [cloneFieldsF] at heq
          split at heq
          · exact Option.noConfusion heq
          · exact FieldsRes.noConfusion (Option.some.inj heq)
          · rename_i o s1 heq1
            split at heq
            · exact Option.noConfusion heq
            · rename_i fs3 s3 heq2
              simp only [Option.some.injEq, FieldsRes.fok.injEq] at heq
              rw [← heq.1]
              simp only [List.all_cons, Bool.and_eq_true] at hnb
              show (noBig o && noBigFields fs3) = true
              rw [ihv v seen o s1 hnb.1 heq1, ihf rest s1 fs3 s3 hnb.2 heq2]
              rfl
            · rename_i s3 heq2
              exact FieldsRes.noConfusion (Option.some.inj heq)

/-- With no throwing special node in the heap, no exception ever
escapes a clone: gthrow fields and throwing enumerations are caught by
the object branch's try and degrade to sentinels, and nothing else
throws. -/
theorem clone_noThrow (h : List Node) (hok : heapSpecialsOk h = true) :
    ∀ fuel : Nat,
      (∀ v seen r, cloneValF h fuel v seen = some r → ∃ o s', r = .cok o s')
      ∧ (∀ vs seen r, cloneListF h fuel vs seen = some r →
          ∃ os s', r = .lok os s') := by
  intro fuel
  induction fuel with
  | zero =>
    refine ⟨?_, ?_⟩
    · intro v seen r he
      exact Option.noConfusion he
    · intro vs seen r he
      exact Option.noConfusion he
  | succ fuel ih =>
    obtain ⟨ihv, ihl⟩ := ih
    refine ⟨?_, ?_⟩
    · intro v seen r hv
      cases v with
      | prim p =>
        obtain rfl := Option.some.inj hv
        exact ⟨_, _, rfl⟩
      | ref a =>
        simp only [cloneValF] at hv
        split at hv
        · obtain rfl := Option.some.inj hv
          exact ⟨_, _, rfl⟩
        · rename_i accessThrows name message stack hget
          split at hv
          · rename_i hcond
            have hnd := List.all_eq_true.mp hok _ (List.get?_mem hget)
            simp [nodeSpecialsOk, hcond] at hnd
          · obtain rfl := Option.some.inj hv
            exact ⟨_, _, rfl⟩
        · rename_i invalid iso hget
          split at hv
          · rename_i hcond
            have hnd := List.all_eq_true.mp hok _ (List.get?_mem hget)
            simp [nodeSpecialsOk, hcond] at hnd
          · obtain rfl := Option.some.inj hv
            exact ⟨_, _, rfl⟩
        · rename_i toStringThrows src hget
          split at hv
          · rename_i hcond
            have hnd := List.all_eq_true.mp hok _ (List.get?_mem hget)
            simp [nodeSpecialsOk, hcond] at hnd
          · obtain rfl := Option.some.inj hv
            exact ⟨_, _, rfl⟩
        · -- arrNode
          split at hv
          · obtain rfl := Option.some.inj hv
            exact ⟨_, _, rfl⟩
          · split at hv
            · exact Option.noConfusion hv
            · obtain rfl := Option.some.inj hv
              exact ⟨_, _, rfl⟩
            · rename_i s2 heqL
              obtain ⟨os, s3, hcontra⟩ := ihl _ _ _ heqL
              exact CloneLRes.noConfusion hcontra
        · -- objNode
          split at hv
          · obtain rfl := Option.some.inj hv
            exact ⟨_, _, rfl⟩
          · split at hv
            · obtain rfl := Option.some.inj hv
              exact ⟨_, _, rfl⟩
            · split at hv
              · exact Option.noConfusion hv
              · obtain rfl := Option.some.inj hv
                exact ⟨_, _, rfl⟩
              · obtain rfl := Option.some.inj hv
                exact ⟨_, _, rfl⟩
    · intro vs seen r hv
      cases vs with
      | nil =>
        obtain rfl := Option.some.inj hv
        exact ⟨_, _, rfl⟩
      | cons v vs =>
        simp only [cloneListF] at hv
        split at hv
        · exact Option.noConfusion hv
        · rename_i s1 heq1
          obtain ⟨o, s2, hcontra⟩ := ihv _ _ _ heq1
          exact CloneVRes.noConfusion hcontra
        · rename_i o s1 heq1
          split at hv
          · exact Option.noConfusion hv
          · obtain rfl := Option.some.inj hv
            exact ⟨_, _, rfl⟩
          · rename_i s2 heq2
            obtain ⟨os, s3, hcontra⟩ := ihl _ _ _ heq2
            exact CloneLRes.noConfusion hcontra

/-- Unfolding `safeCloneData` one element whose clone succeeded. -/
theorem safeCloneData_cons_ok (h : List Node) (v : JVal) (rest : List JVal)
    (o : JOut) (hv : safeClone h v = Except.ok o) :
    safeCloneData h (v :: rest)
      = match safeCloneData h rest with
        | .error e => .error e
        | .ok os => .ok (o :: os) := by
  simp only [safeCloneData, hv]

/-- C4 counterexample: for the object
`{ get throwingGetter() { throw ... }, normalProp: "value" }` the
normalizer returns the string sentinel `'[Uncloneable Object]'` for the
whole object — it does not return an object in which only the throwing
key was replaced and `normalProp` survived, because the try/catch wraps
the entire key loop. -/
theorem hostile_getter_per_key_counterexample :
    safeClone [.objNode false [("throwingGetter", .gthrow),
        ("normalProp", .gval (.prim (.jstr "value")))]] (.ref 0)
      = Except.ok (.ostr "[Uncloneable Object]")
    ∧ safeClone [.objNode false [("throwingGetter", .gthrow),
        ("normalProp", .gval (.prim (.jstr "value")))]] (.ref 0)
      ≠ Except.ok (.oobj (.ofcons "throwingGetter" (.ostr "[Uncloneable Object]")
          (.ofcons "normalProp" (.ostr "value") .ofnil))) := by
  refine ⟨rfl, ?_⟩
  intro hc
  have h1 : Except.ok (ε := Unit) (JOut.ostr "[Uncloneable Object]")
      = Except.ok (.oobj (.ofcons "throwingGetter" (.ostr "[Uncloneable Object]")
          (.ofcons "normalProp" (.ostr "value") .ofnil))) := hc
  exact JOut.noConfusion (Except.ok.inj h1)

/-- C4 (amended): a hostile getter on any key is caught, but the
sentinel replaces the value of the *whole containing object*
(`'[Uncloneable Object]'`), not just that key; the remaining keys are
not normalized. The failure is still confined to that data argument:
the call returns normally and sibling data arguments are normalized
independently. -/
theorem hostile_getter_whole_object (h : List Node) (a : Nat)
    (fields : List (String × GetRes))
    (hget : h.get? a = some (.objNode false fields))
    (hthrow : ∃ k, (k, GetRes.gthrow) ∈ fields) :
    safeClone h (.ref a) = Except.ok (.ostr "[Uncloneable Object]")
    ∧ ∀ w data os, safeCloneData h (w :: data) = Except.ok os →
        safeCloneData h (.ref a :: w :: data)
          = Except.ok (.ostr "[Uncloneable Object]" :: os) := by
  have hsome := cloneValF_heapFuel_isSome h (.ref a)
  rw [heapFuel] at hsome
  have hcv : ∃ s2, cloneValF h ((h.map nodeCost).sum + 1) (.ref a) []
      = some (.cok (.ostr "[Uncloneable Object]") s2) := by
    rcases cloneFieldsF_gthrow h ((h.map nodeCost).sum) fields [a] hthrow
      with hnone | ⟨s2, hthrew⟩
    · exfalso
      simp only [cloneValF, hget, List.not_mem_nil, if_false, hnone] at hsome
      exact Bool.noConfusion hsome
    · refine ⟨s2, ?_⟩
      simp only [cloneValF, hget, List.not_mem_nil, if_false, hthrew]
      rfl
  obtain ⟨s2, hcv⟩ := hcv
  have hmain : safeClone h (.ref a) = Except.ok (.ostr "[Uncloneable Object]") := by
    rw [safeClone, heapFuel, hcv]
  refine ⟨hmain, ?_⟩
  intro w data os hos
  rw [safeCloneData_cons_ok h _ _ _ hmain, hos]

/-- Witness for `hostile_getter_whole_object` at the two-key hostile
object from the chaos test, with a sibling argument cloned normally. -/
theorem hostile_getter_whole_object_witness :
    safeClone [.objNode false [("throwingGetter", .gthrow),
        ("normalProp", .gval (.prim (.jstr "value")))]] (.ref 0)
      = Except.ok (.ostr "[Uncloneable Object]")
    ∧ safeCloneData [.objNode false [("throwingGetter", .gthrow),
        ("normalProp", .gval (.prim (.jstr "value")))]]
        [.ref 0, .prim (.jnum 7)]
      = Except.ok [.ostr "[Uncloneable Object]", .onum 7] := by
  have h := hostile_getter_whole_object
    [.objNode false [("throwingGetter", .gthrow),
      ("normalProp", .gval (.prim (.jstr "value")))]] 0
    [("throwingGetter", .gthrow), ("normalProp", .gval (.prim (.jstr "value")))]
    rfl ⟨"throwingGetter", List.mem_cons_self _ _⟩
  exact ⟨h.1, h.2 (.prim (.jnum 7)) [] [.onum 7] rfl⟩

/-- C5 counterexample: the claim's "terminates and returns a
JSON-serializable value without throwing" fails twice on the code. An
invalid Date (`new Date(NaN)`) makes `value.toISOString()` at the Date
branch throw `RangeError` outside any try, and the exception escapes
`safeClone` — both at top level and through the un-guarded array
branch. Separately, a BigInt input passes through unchanged (`typeof
value !== 'object'`) and `JSON.stringify(1n)` throws a TypeError. -/
theorem normalizer_counterexample :
    safeClone [.dateNode true ""] (.ref 0) = Except.error ()
    ∧ safeClone [.arrNode [.ref 1], .dateNode true ""] (.ref 0) = Except.error ()
    ∧ safeClone [] (.prim (.jbig 1)) = Except.ok (.obig 1)
    ∧ jsonSerializable (.obig 1) = false :=
  ⟨rfl, rfl, rfl, rfl⟩

/-- C5 (amended): the normalizer always terminates (within the explicit
fuel bound), but it is not literally zero-throw: an invalid Date or a
hostile special-branded object whose un-guarded accessor throws
(`value.toISOString()` / `value.name` / `value.toString()`, all outside
any try) makes the exception escape `safeClone` when reached at top
level or through the array branch — inside a plain object's key loop it
is caught and the object degrades to `'[Uncloneable Object]'`. When no
such throwing special node exists — in particular for every graph of
plain objects, arrays and primitives, cyclic ones included — `safeClone`
returns normally; the result is JSON-serializable whenever the input
also contains no bigint; a reference already visited within the same
invocation becomes `'[Circular Reference]'`; and each `data` element is
normalized with a fresh visited set. -/
theorem normalizer_total_and_serializable :
    (∀ (h : List Node) (v : JVal), (cloneValF h (heapFuel h) v []).isSome = true)
    ∧ (∀ (h : List Node) (v : JVal), heapSpecialsOk h = true →
        ∃ o, safeClone h v = Except.ok o)
    ∧ (∀ (h : List Node) (v : JVal) (o : JOut), heapNoBig h = true →
        valNoBig v = true → safeClone h v = Except.ok o →
        jsonSerializable o = true)
    ∧ safeClone [.objNode false [("a", .gval (.prim (.jnum 1))),
        ("self", .gval (.ref 0))]] (.ref 0)
      = Except.ok (.oobj (.ofcons "a" (.onum 1)
          (.ofcons "self" (.ostr "[Circular Reference]") .ofnil)))
    ∧ (∀ (h : List Node) (v : JVal) (rest : List JVal) (o : JOut),
        safeClone h v = Except.ok o →
        safeCloneData h (v :: rest)
          = (safeCloneData h rest).map (fun os => o :: os)) := by
  refine ⟨cloneValF_heapFuel_isSome, ?_, ?_, rfl, ?_⟩
  · intro h v hok
    rcases Option.isSome_iff_exists.mp (cloneValF_heapFuel_isSome h v) with ⟨r, heq⟩
    obtain ⟨o, s2, rfl⟩ := (clone_noThrow h hok (heapFuel h)).1 v [] r heq
    exact ⟨o, by rw [safeClone, heq]⟩
  · intro h v o hh hv hok
    rw [safeClone] at hok
    split at hok
    · rename_i o2 s2 heq
      rw [← Except.ok.inj hok]
      exact (clone_noBig h hh (heapFuel h)).1 v [] o2 s2 hv heq
    · exact Except.noConfusion hok
    · exact Except.noConfusion hok
  · intro h v rest o hv
    rw [safeCloneData_cons_ok h _ _ _ hv]
    cases hr : safeCloneData h rest <;> simp [Except.map]

/-- Witness for `normalizer_total_and_serializable`: a bigint-free,
special-free heap value normalizes without throwing, and its output is
JSON-serializable. -/
theorem normalizer_total_and_serializable_witness :
    (∃ o, safeClone [.arrNode [.prim (.jnum 2), .prim (.jstr "x")]] (.ref 0)
      = Except.ok o)
    ∧ jsonSerializable (.oarr (.ocons (.onum 2) (.ocons (.ostr "x") .onil)))
      = true :=
  ⟨normalizer_total_and_serializable.2.1
      [.arrNode [.prim (.jnum 2), .prim (.jstr "x")]] (.ref 0) rfl,
    normalizer_total_and_serializable.2.2.1
      [.arrNode [.prim (.jnum 2), .prim (.jstr "x")]] (.ref 0)
      (.oarr (.ocons (.onum 2) (.ocons (.ostr "x") .onil))) rfl rfl rfl⟩

/-- C9: a reference whose address is already in the visited set comes
back as `'[Circular Reference]'` whatever the node holds (array or
plain object) — the set is add-only, so this fires even for acyclic
sharing, as the concrete DAG `{p: shared, q: shared}` shows: the second
sibling occurrence degrades to the sentinel. Separate elements of a
`data` array use independent visited sets, so the same shared object
passed twice as two arguments is cloned fully both times. -/
theorem shared_reference_circular :
    (∀ (h : List Node) (fuel a : Nat) (seen : List Nat), a ∈ seen →
      (∀ elems, h.get? a = some (.arrNode elems) →
        cloneValF h (fuel + 1) (.ref a) seen
          = some (.cok (.ostr "[Circular Reference]") seen))
      ∧ (∀ et fields, h.get? a = some (.objNode et fields) →
        cloneValF h (fuel + 1) (.ref a) seen
          = some (.cok (.ostr "[Circular Reference]") seen)))
    ∧ safeClone [.objNode false [("p", .gval (.ref 1)), ("q", .gval (.ref 1))],
        .objNode false [("a", .gval (.prim (.jnum 1)))]] (.ref 0)
      = Except.ok (.oobj (.ofcons "p" (.oobj (.ofcons "a" (.onum 1) .ofnil))
          (.ofcons "q" (.ostr "[Circular Reference]") .ofnil)))
    ∧ safeCloneData [.objNode false [("p", .gval (.ref 1)), ("q", .gval (.ref 1))],
        .objNode false [("a", .gval (.prim (.jnum 1)))]] [.ref 1, .ref 1]
      = Except.ok [.oobj (.ofcons "a" (.onum 1) .ofnil),
          .oobj (.ofcons "a" (.onum 1) .ofnil)] := by
  refine ⟨?_, rfl, rfl⟩
  intro h fuel a seen hmem
  constructor
  · intro elems hget
    simp only [cloneValF, hget, if_pos hmem]
  · intro et fields hget
    simp only [cloneValF, hget, if_pos hmem]

/-- Witness for `shared_reference_circular`: address 0 already visited
makes the clone return the circular sentinel immediately. -/
theorem shared_reference_circular_witness :
    cloneValF [.arrNode []] 1 (.ref 0) [0]
      = some (.cok (.ostr "[Circular Reference]") [0]) :=
  (shared_reference_circular.1 [.arrNode []] 0 0 [0]
    (List.mem_cons_self 0 [])).1 [] rfl

/-! ## Object differ (claim C10)

network-capture.ts: `deepEqual`, `computeDiff`, `createDiffResult`,
`hasChanges`. Values are JSON-like trees; `vnan` is the number NaN,
which `===` never equates. `===` on two structurally equal composites
built at different times is `false` in JavaScript, which is how this
embedding models it; for NaN-free values this yields the same
`deepEqual`/`computeDiff` results as the aliased same-reference call
(where `===` shortcuts to `true`), because `deepEqual` is reflexive
there — the claim's hypothesis excludes the one case (NaN) on which the
two readings differ. -/

mutual
inductive DVal where
  | vundef
  | vnull
  | vbool (b : Bool)
  | vnan
  | vnum (n : Int)
  | vstr (s : String)
  | varr (elems : DElems)
  | vobj (fields : DFields)
inductive DElems where
  | dnil
  | dcons (v : DVal) (rest : DElems)
inductive DFields where
  | fnil
  | fcons (k : String) (v : DVal) (rest : DFields)
end

/-- `typeof`. -/
def jsTypeof : DVal → String
  | .vundef => "undefined"
  | .vnull => "object"
  | .vbool _ => "boolean"
  | .vnan => "number"
  | .vnum _ => "number"
  | .vstr _ => "string"
  | .varr _ => "object"
  | .vobj _ => "object"

/-- `===` between the two compared occurrences: primitives by value,
`NaN === NaN` is false, and composites are distinct references. -/
def jsStrictEq : DVal → DVal → Bool
  | .vundef, .vundef => true
  | .vnull, .vnull => true
  | .vbool a, .vbool b => a == b
  | .vnum a, .vnum b => a == b
  | .vstr a, .vstr b => a == b
  | _, _ => false

def isNullV : DVal → Bool
  | .vnull => true
  | _ => false

/-- `isPlainObject`: non-null object that is not an array. -/
def isPlainObject : DVal → Bool
  | .vobj _ => true
  | _ => false

def isArrV : DVal → Bool
  | .varr _ => true
  | _ => false

def dlength : DElems → Nat
  | .dnil => 0
  | .dcons _ rest => dlength rest + 1

/-- `b[i]` walks off with `undefined` when absent. -/
def dheadD : DElems → DVal
  | .dnil => .vundef
  | .dcons v _ => v

def dtailD : DElems → DElems
  | .dnil => .dnil
  | .dcons _ rest => rest

def flength : DFields → Nat
  | .fnil => 0
  | .fcons _ _ rest => flength rest + 1

/-- `obj[key]`: `undefined` when the key is absent. -/
def lookupD : DFields → String → DVal
  | .fnil, _ => .vundef
  | .fcons k2 v rest, k => if k2 = k then v else lookupD rest k

/-- `Object.keys`. -/
def fkeys : DFields → List String
  | .fnil => []
  | .fcons k _ rest => k :: fkeys rest

/-! `deepEqual` from network-capture.ts. The element comparison walks
`a` with positional access into `b` (`b[i]`), the field comparison
walks the keys of `a` with keyed access into `b`. -/
mutual
def deepEqual (a b : DVal) : Bool :=
  if jsStrictEq a b then true
  else if jsTypeof a ≠ jsTypeof b then false
  else if isNullV a || isNullV b then jsStrictEq a b
  else
    match a, b with
    | .varr as2, .varr bs => (dlength as2 == dlength bs) && deepEqualElems as2 bs
    | .vobj fa, .vobj fb => (flength fa == flength fb) && deepEqualFields fa fb
    | _, _ => false
def deepEqualElems : DElems → DElems → Bool
  | .dnil, _ => true
  | .dcons x xs, ys => deepEqual x (dheadD ys) && deepEqualElems xs (dtailD ys)
def deepEqualFields : DFields → DFields → Bool
  | .fnil, _ => true
  | .fcons k va rest, fb => deepEqual va (lookupD fb k) && deepEqualFields rest fb
end

inductive DiffType where
  | added
  | removed
  | changed
  | unchanged
deriving DecidableEq, Repr

structure DiffEntry where
  path : String
  type : DiffType
  oldValue : Option DVal
  newValue : Option DVal

structure DiffSummary where
  added : Nat
  removed : Nat
  changed : Nat
  unchanged : Nat
deriving DecidableEq, Repr

structure DiffResult where
  changes : List DiffEntry
  summary : DiffSummary

/-- `path || '(root)'`. -/
def pathOr (path : String) : String :=
  if path = "" then "(root)" else path

/-- First-occurrence deduplication, as `new Set([...as, ...bs])`
iterated in insertion order. -/
def insertionDedup (ks : List String) : List String :=
  ks.foldl (fun acc k => if k ∈ acc then acc else acc ++ [k]) []

theorem sizeOf_lookupD_lt_of_isPlainObject :
    ∀ (fs : DFields) (k : String), isPlainObject (lookupD fs k) = true →
      sizeOf (lookupD fs k) < sizeOf fs
  | .fnil, k, h => by simp [lookupD, isPlainObject] at h
  | .fcons k2 v rest, k, h => by
    rw [lookupD] at h ⊢
    by_cases hk : k2 = k
    · rw [if_pos hk] at h ⊢
      simp only [DFields.fcons.sizeOf_spec]
      omega
    · rw [if_neg hk] at h ⊢
      have := sizeOf_lookupD_lt_of_isPlainObject rest k h
      simp only [DFields.fcons.sizeOf_spec]
      omega

/-! `computeDiff` from network-capture.ts; `diffKeys` is the
`for (const key of allKeys)` loop accumulating entries. -/
mutual
def computeDiff (oldObj newObj : DVal) (path : String)
    (includeUnchanged : Bool) : List DiffEntry :=
  if !(isPlainObject oldObj) && !(isPlainObject newObj) then
    if !(deepEqual oldObj newObj) then
      [⟨pathOr path, .changed, some oldObj, some newObj⟩]
    else if includeUnchanged then
      [⟨pathOr path, .unchanged, some oldObj, some newObj⟩]
    else []
  else if !(isPlainObject oldObj) then
    [⟨pathOr path, .changed, some oldObj, some newObj⟩]
  else if !(isPlainObject newObj) then
    [⟨pathOr path, .changed, some oldObj, some newObj⟩]
  else
    match oldObj, newObj with
    | .vobj fa, .vobj fb =>
      diffKeys fa fb (insertionDedup (fkeys fa ++ fkeys fb)) path includeUnchanged
    | _, _ => []
  termination_by (sizeOf oldObj + sizeOf newObj, 1, 0)
def diffKeys (fa fb : DFields) (keys : List String) (path : String)
    (includeUnchanged : Bool) : List DiffEntry :=
  match keys with
  | [] => []
  | k :: rest =>
    (let fullPath := if path = "" then k else path ++ "." ++ k
     let oldVal := lookupD fa k
     let newVal := lookupD fb k
     let oldHas := (fkeys fa).contains k
     let newHas := (fkeys fb).contains k
     if !oldHas && newHas then
       [⟨fullPath, .added, none, some newVal⟩]
     else if oldHas && !newHas then
       [⟨fullPath, .removed, some oldVal, none⟩]
     else if isPlainObject oldVal && isPlainObject newVal then
       computeDiff oldVal newVal fullPath includeUnchanged
     else if isArrV oldVal && isArrV newVal then
       if !deepEqual oldVal newVal then
         [⟨fullPath, .changed, some oldVal, some newVal⟩]
       else if includeUnchanged then
         [⟨fullPath, .unchanged, some oldVal, some newVal⟩]
       else []
     else if !deepEqual oldVal newVal then
       [⟨fullPath, .changed, some oldVal, some newVal⟩]
     else if includeUnchanged then
       [⟨fullPath, .unchanged, some oldVal, some newVal⟩]
     else [])
    ++ diffKeys fa fb rest path includeUnchanged
  termination_by (sizeOf fa + sizeOf fb, 0, keys.length)
  decreasing_by
    · simp_wf
      rename_i hcond
      rw [Bool.and_eq_true] at hcond
      have h1 := sizeOf_lookupD_lt_of_isPlainObject fa k hcond.1
      have h2 := sizeOf_lookupD_lt_of_isPlainObject fb k hcond.2
      exact Prod.Lex.left _ _ (by omega)
    · simp_wf
      exact Prod.Lex.right _ (Prod.Lex.right _ (by omega))
end

/-- `summary[change.type]++`. -/
def bumpSummary (s : DiffSummary) : DiffType → DiffSummary
  | .added => { s with added := s.added + 1 }
  | .removed => { s with removed := s.removed + 1 }
  | .changed => { s with changed := s.changed + 1 }
  | .unchanged => { s with unchanged := s.unchanged + 1 }

/-- `createDiffResult`. -/
def createDiffResult (oldObj newObj : DVal) : DiffResult :=
  let changes := computeDiff oldObj newObj "" false
  { changes := changes,
    summary := changes.foldl (fun s c => bumpSummary s c.type) ⟨0, 0, 0, 0⟩ }

/-- `hasChanges`. -/
def hasChanges (diff : DiffResult) : Bool :=
  decide (0 < diff.summary.added) || decide (0 < diff.summary.removed)
    || decide (0 < diff.summary.changed)

/-! A value is representable as a JavaScript runtime value iff every
object level has duplicate-free keys; the claim additionally excludes
NaN. `goodVal` bundles both side conditions. -/
mutual
def goodVal : DVal → Bool
  | .vnan => false
  | .varr es => goodElems es
  | .vobj fs => decide (fkeys fs).Nodup && goodFields fs
  | _ => true
def goodElems : DElems → Bool
  | .dnil => true
  | .dcons v rest => goodVal v && goodElems rest
def goodFields : DFields → Bool
  | .fnil => true
  | .fcons _ v rest => goodVal v && goodFields rest
end

/-- The key/value entries of an object, in declaration order. -/
def fentries : DFields → List (String × DVal)
  | .fnil => []
  | .fcons k v rest => (k, v) :: fentries rest

theorem lookupD_goodVal : ∀ (fs : DFields) (k : String),
    goodFields fs = true → goodVal (lookupD fs k) = true
  | .fnil, _, _ => rfl
  | .fcons k2 v rest, k, h => by
    simp only [goodFields, Bool.and_eq_true] at h
    rw [lookupD]
    by_cases hk : k2 = k
    · rw [if_pos hk]
      exact h.1
    · rw [if_neg hk]
      exact lookupD_goodVal rest k h.2

theorem fentries_key_mem : ∀ (fs : DFields) (kv : String × DVal),
    kv ∈ fentries fs → kv.1 ∈ fkeys fs
  | .fnil, kv, h => absurd h (List.not_mem_nil _)
  | .fcons k v rest, kv, h => by
    rw [fentries] at h
    rw [fkeys]
    rcases List.mem_cons.mp h with he | hr
    · rw [he]
      exact List.mem_cons_self _ _
    · exact List.mem_cons_of_mem _ (fentries_key_mem rest kv hr)

theorem lookupD_fentries_self : ∀ (fa : DFields), (fkeys fa).Nodup →
    ∀ kv ∈ fentries fa, lookupD fa kv.1 = kv.2
  | .fnil, _, kv, h => absurd h (List.not_mem_nil _)
  | .fcons k v rest, hnd, kv, h => by
    rw [fkeys] at hnd
    obtain ⟨hknotin, hndrest⟩ := List.nodup_cons.mp hnd
    rw [fentries] at h
    rw [lookupD]
    rcases List.mem_cons.mp h with he | hr
    · rw [he]
      simp
    · have hk : kv.1 ≠ k :=
        fun he2 => hknotin (he2 ▸ fentries_key_mem rest kv hr)
      rw [if_neg (fun hc => hk hc.symm)]
      exact lookupD_fentries_self rest hndrest kv hr

theorem fentries_goodVal : ∀ (fs : DFields), goodFields fs = true →
    ∀ kv ∈ fentries fs, goodVal kv.2 = true
  | .fnil, _, kv, h => absurd h (List.not_mem_nil _)
  | .fcons k v rest, hg, kv, h => by
    simp only [goodFields, Bool.and_eq_true] at hg
    rw [fentries] at h
    rcases List.mem_cons.mp h with he | hr
    · rw [he]
      exact hg.1
    · exact fentries_goodVal rest hg.2 kv hr

/-- Reflexivity of `deepEqual` on NaN-free, well-keyed values: the
comparison walks the shared structure and every leaf compares equal
under `===` except NaN, which `goodVal` excludes. -/
theorem deepEqual_refl_aux : ∀ n : Nat,
    (∀ a, sizeOf a ≤ n → goodVal a = true → deepEqual a a = true)
    ∧ (∀ es, sizeOf es ≤ n → goodElems es = true → deepEqualElems es es = true)
    ∧ (∀ fs fa, sizeOf fs ≤ n → goodFields fs = true →
        (∀ kv ∈ fentries fs, lookupD fa kv.1 = kv.2) →
        (∀ kv ∈ fentries fs, goodVal kv.2 = true) →
        deepEqualFields fs fa = true) := by
  intro n
  induction n using Nat.strong_induction_on with
  | _ n ih =>
    refine ⟨?_, ?_, ?_⟩
    · intro a hsize hg
      match a with
      | .vundef => rfl
      | .vnull => rfl
      | .vbool b => simp [deepEqual, jsStrictEq]
      | .vnan => simp [goodVal] at hg
      | .vnum m => simp [deepEqual, jsStrictEq]
      | .vstr s => simp [deepEqual, jsStrictEq]
      | .varr es =>
        have hsz : sizeOf es ≤ n - 1 ∧ 1 ≤ n := by
          simp only [DVal.varr.sizeOf_spec] at hsize
          omega
        have he := (ih (n - 1) (by omega)).2.1 es hsz.1 (by
          simpa only [goodVal] using hg)
        simp [deepEqual, jsStrictEq, jsTypeof, isNullV, he]
      | .vobj fs =>
        have hsz : sizeOf fs ≤ n - 1 ∧ 1 ≤ n := by
          simp only [DVal.vobj.sizeOf_spec] at hsize
          omega
        simp only [goodVal, Bool.and_eq_true, decide_eq_true_eq] at hg
        have he := (ih (n - 1) (by omega)).2.2 fs fs hsz.1 hg.2
          (lookupD_fentries_self fs hg.1) (fentries_goodVal fs hg.2)
        simp [deepEqual, jsStrictEq, jsTypeof, isNullV, he]
    · intro es hsize hg
      match es with
      | .dnil => rfl
      | .dcons v rest =>
        simp only [goodElems, Bool.and_eq_true] at hg
        have hsz : sizeOf v ≤ n - 1 ∧ sizeOf rest ≤ n - 1 ∧ 1 ≤ n := by
          simp only [DElems.dcons.sizeOf_spec] at hsize
          omega
        rw [deepEqualElems]
        show (deepEqual v (dheadD (.dcons v rest))
          && deepEqualElems rest (dtailD (.dcons v rest))) = true
        rw [show dheadD (.dcons v rest) = v from rfl,
          show dtailD (.dcons v rest) = rest from rfl]
        rw [(ih (n - 1) (by omega)).1 v hsz.1 hg.1,
          (ih (n - 1) (by omega)).2.1 rest hsz.2.1 hg.2]
        rfl
    · intro fs fa hsize hg hagree hgood
      match fs with
      | .fnil => rfl
      | .fcons k v rest =>
        simp only [goodFields, Bool.and_eq_true] at hg
        have hsz : sizeOf v ≤ n - 1 ∧ sizeOf rest ≤ n - 1 ∧ 1 ≤ n := by
          simp only [DFields.fcons.sizeOf_spec] at hsize
          omega
        rw [deepEqualFields]
        have hlk : lookupD fa k = v :=
          hagree (k, v) (by rw [fentries]; exact List.mem_cons_self _ _)
        rw [hlk]
        rw [(ih (n - 1) (by omega)).1 v hsz.1 hg.1,
          (ih (n - 1) (by omega)).2.2 rest fa hsz.2.1 hg.2
            (fun kv hkv => hagree kv (by rw [fentries]; exact List.mem_cons_of_mem _ hkv))
            (fun kv hkv => hgood kv (by rw [fentries]; exact List.mem_cons_of_mem _ hkv))]
        rfl

/-- `deepEqual a a = true` for NaN-free well-keyed values. -/
theorem deepEqual_refl (a : DVal) (hg : goodVal a = true) :
    deepEqual a a = true :=
  (deepEqual_refl_aux (sizeOf a)).1 a (Nat.le_refl _) hg

/-- Diffing a NaN-free value against itself produces no entries: each
key resolves to the same value on both sides, nested objects recurse
into empty diffs, and everything else is filtered by the reflexive
`deepEqual`. -/
theorem computeDiff_self_aux : ∀ n : Nat,
    (∀ x path, sizeOf x ≤ n → goodVal x = true → computeDiff x x path false = [])
    ∧ (∀ (fa : DFields) (keys : List String) (path : String),
        sizeOf (DVal.vobj fa) ≤ n → goodVal (DVal.vobj fa) = true →
        diffKeys fa fa keys path false = []) := by
  intro n
  induction n using Nat.strong_induction_on with
  | _ n ih =>
    have hkeys : ∀ (fa : DFields) (keys : List String) (path : String),
        sizeOf (DVal.vobj fa) ≤ n → goodVal (DVal.vobj fa) = true →
        diffKeys fa fa keys path false = [] := by
      intro fa keys path hsize hg
      induction keys with
      | nil => simp [diffKeys]
      | cons k rest ihk =>
        simp only [goodVal, Bool.and_eq_true, decide_eq_true_eq] at hg
        have hgood := lookupD_goodVal fa k hg.2
        have hde := deepEqual_refl (lookupD fa k) hgood
        have hcd : isPlainObject (lookupD fa k) = true →
            computeDiff (lookupD fa k) (lookupD fa k)
              (if path = "" then k else path ++ "." ++ k) false = [] := by
          intro hv
          have hlt := sizeOf_lookupD_lt_of_isPlainObject fa k hv
          have hb : sizeOf (lookupD fa k) ≤ n - 1 ∧ 1 ≤ n := by
            simp only [DVal.vobj.sizeOf_spec] at hsize
            omega
          exact (ih (n - 1) (by omega)).1 _ _ hb.1 hgood
        cases hc : (fkeys fa).contains k <;>
          cases hv : isPlainObject (lookupD fa k) <;>
            cases ha : isArrV (lookupD fa k) <;>
              simp [diffKeys, hc, hv, ha, hde, ihk, hcd]
    refine ⟨?_, hkeys⟩
    intro x path hsize hg
    cases x with
    | vobj fa =>
      have h := hkeys fa (insertionDedup (fkeys fa ++ fkeys fa)) path hsize hg
      simp [computeDiff, isPlainObject, h]
    | vnan => simp [goodVal] at hg
    | vundef => simp [computeDiff, isPlainObject, deepEqual_refl _ hg]
    | vnull => simp [computeDiff, isPlainObject, deepEqual_refl _ hg]
    | vbool b => simp [computeDiff, isPlainObject, deepEqual_refl _ hg]
    | vnum m => simp [computeDiff, isPlainObject, deepEqual_refl _ hg]
    | vstr s => simp [computeDiff, isPlainObject, deepEqual_refl _ hg]
    | varr es => simp [computeDiff, isPlainObject, deepEqual_refl _ hg]

/-- C10: for every value x containing no NaN (and with JavaScript's
duplicate-free object keys), `createDiffResult(x, x)` returns an empty
change list with an all-zero summary, and `hasChanges` of that result
is false. -/
theorem diff_self_no_changes (x : DVal) (hg : goodVal x = true) :
    createDiffResult x x = ⟨[], ⟨0, 0, 0, 0⟩⟩
    ∧ hasChanges (createDiffResult x x) = false := by
  have h := (computeDiff_self_aux (sizeOf x)).1 x "" (Nat.le_refl _) hg
  constructor
  · simp [createDiffResult, h]
  · simp [hasChanges, createDiffResult, h]

/-- Witness for `diff_self_no_changes` on the object `{a: 1}`. -/
theorem diff_self_no_changes_witness :
    createDiffResult (.vobj (.fcons "a" (.vnum 1) .fnil))
        (.vobj (.fcons "a" (.vnum 1) .fnil))
      = ⟨[], ⟨0, 0, 0, 0⟩⟩
    ∧ hasChanges (createDiffResult (.vobj (.fcons "a" (.vnum 1) .fnil))
        (.vobj (.fcons "a" (.vnum 1) .fnil))) = false :=
  diff_self_no_changes (.vobj (.fcons "a" (.vnum 1) .fnil)) (by decide)

end DevLogger
